import Mathlib

/-!
Verification of the gec library's modular add-group arithmetic, Jacobian
curve-point formulas, and Pollard lambda solver data, shallowly embedded
from the C++ sources.

The Jacobian mixin (`Jacobain` in the source, spelling kept) is generic over
the coefficient field `FIELD_T`; we embed it over an arbitrary decidable
field `F`.  The big-integer add-group mixins operate on little-endian limb
sequences of `N` limbs of `W` bits; we embed a limb sequence by its value,
a natural number below `2 ^ NW` with `NW = N * W`, and make the wrap-around
of the sequence primitives explicit with `% 2 ^ NW`.
-/

/-- A Jacobian point: three field coordinates `x`, `y`, `z`, with `z = 0`
encoding the point at infinity. -/
structure JPoint (F : Type) where
  x : F
  y : F
  z : F
deriving DecidableEq

variable {F : Type} [Field F] [DecidableEq F]

/-- `Jacobain::neg` (src/unnamed/part_001, lines 244-249).  The code runs
`a.x() = b.y()`, then `FIELD_T::neg(a.y(), b.y())`, then `a.z() = b.z()`;
note that the x coordinate of the result is assigned from `b.y()`. -/
def Jacobain.neg (b : JPoint F) : JPoint F :=
  ⟨b.y, -b.y, b.z⟩

/-- `Jacobain::to_affine` (src/unnamed/part_001, lines 87-107).  Returns
unchanged on infinity (`z = 0`) or when `z` is the multiplicative identity;
otherwise inverts `z` in place (`FIELD_T::inv(a.z(), ctx)`), then assigns
`x := x * z⁻²` and `y := y * z⁻³`, leaving `z⁻¹` in the z slot. -/
def Jacobain.to_affine (p : JPoint F) : JPoint F :=
  if p.z = 0 ∨ p.z = 1 then p
  else
    let zinv := p.z⁻¹
    let t1 := zinv * zinv
    let x' := p.x * t1
    let t2 := t1 * zinv
    let y' := p.y * t2
    ⟨x', y', zinv⟩

/-- `Jacobain::from_affine` (src/unnamed/part_001, lines 109-111):
`a.z().set_mul_id()`. -/
def Jacobain.from_affine (p : JPoint F) : JPoint F :=
  ⟨p.x, p.y, 1⟩

/-- `Jacobain::add_self` (src/unnamed/part_001, lines 178-207), the doubling
formula, with the field operations in source order; `cA` is the curve
coefficient `A`. -/
def Jacobain.add_self (cA : F) (b : JPoint F) : JPoint F :=
  let t5a := b.z * b.z
  let t4a := t5a * t5a
  let t5b := cA * t4a
  let t4b := b.x * b.x
  let t5c := t5b + t4b
  let t5d := t5c + t4b
  let t5e := t5d + t4b
  let az1 := b.y * b.y
  let t4c := b.x * az1
  let t4d := 2 ^ 2 * t4c
  let ay1 := t4d + t4d
  let ax1 := t5e * t5e
  let ax2 := ax1 - ay1
  let t4e := t4d - ax2
  let ay2 := t5e * t4e
  let t4f := az1 * az1
  let t4g := 2 ^ 3 * t4f
  let ay3 := ay2 - t4g
  let az2 := b.y * b.z
  let az3 := 2 ^ 1 * az2
  ⟨ax2, ay3, az3⟩

/-- `Jacobain::add_distinct_inner` (src/unnamed/part_001, lines 27-52).  The
context slots hold `t1 = a = x1 z2²`, `t2 = b = x2 z1²`, `t3 = c = y1 z2³`,
`t4 = d = y2 z1³` on entry; `b`/`c` are the two input points. -/
def Jacobain.add_distinct_inner (b c : JPoint F) (t1 t2 t3 t4 : F) : JPoint F :=
  let e := t2 - t1
  let f := t4 - t3
  let az1 := e * e
  let ay1 := t1 * az1
  let e3 := az1 * e
  let az2 := t3 * e3
  let t3b := ay1 + ay1
  let ax1 := f * f
  let ax2 := ax1 - t3b
  let ax3 := ax2 - e3
  let t1b := ay1 - ax3
  let ay2 := f * t1b
  let ay3 := ay2 - az2
  let t1c := b.z * c.z
  let az3 := t1c * e
  ⟨ax3, ay3, az3⟩

/-- `Jacobain::add` (src/unnamed/part_001, lines 209-242): infinity cases,
then the precomputation of `a = x1 z2²`, `b = x2 z1²`, `c = y1 z2³`,
`d = y2 z1³`, then either `add_self` or `add_distinct_inner`. -/
def Jacobain.add (cA : F) (b c : JPoint F) : JPoint F :=
  if b.z = 0 then c
  else if c.z = 0 then b
  else
    let tc0 := c.z * c.z
    let t0 := tc0 * c.z
    let ta := tc0 * b.x
    let tc := t0 * b.y
    let td0 := b.z * b.z
    let t1 := td0 * b.z
    let tb := td0 * c.x
    let td := t1 * c.y
    if ta = tb ∧ tc = td then Jacobain.add_self cA b
    else Jacobain.add_distinct_inner b c ta tb tc td

instance : Fact (Nat.Prime 5) := ⟨by norm_num⟩

/-- C1: the claim states that `neg(a, b)` leaves `a.x = b.x`, `a.y = -b.y`,
`a.z = b.z`; the code instead assigns `a.x = b.y`.  Evaluating the embedded
`Jacobain.neg` at the point `(1, 2, 1)` over `F₅` shows the divergence: the
result is `(2, 3, 1)`, whose x coordinate is `b.y = 2`, not `b.x = 1`. -/
theorem C1_neg_assigns_y_into_x :
    Jacobain.neg (⟨1, 2, 1⟩ : JPoint (ZMod 5)) = ⟨2, 3, 1⟩ ∧
      (⟨1, 2, 1⟩ : JPoint (ZMod 5)).x = 1 ∧
      Jacobain.neg (⟨1, 2, 1⟩ : JPoint (ZMod 5)) ≠
        ⟨(⟨1, 2, 1⟩ : JPoint (ZMod 5)).x, -(⟨1, 2, 1⟩ : JPoint (ZMod 5)).y,
          (⟨1, 2, 1⟩ : JPoint (ZMod 5)).z⟩ := by
  refine ⟨?_, ?_, ?_⟩ <;> decide

/-- C3 counterexample: the claim says `to_affine` leaves `p.z` unchanged in
the generic branch.  At `p = (1, 1, 2)` over `F₅` the code leaves
`z⁻¹ = 3 ≠ 2` in the z slot. -/
theorem C3_to_affine_changes_z :
    (Jacobain.to_affine (⟨1, 1, 2⟩ : JPoint (ZMod 5))).z ≠
      (⟨1, 1, 2⟩ : JPoint (ZMod 5)).z := by
  have hcond : ¬((⟨1, 1, 2⟩ : JPoint (ZMod 5)).z = 0 ∨
      (⟨1, 1, 2⟩ : JPoint (ZMod 5)).z = 1) := by decide
  have hz : (Jacobain.to_affine (⟨1, 1, 2⟩ : JPoint (ZMod 5))).z =
      ((2 : ZMod 5))⁻¹ := by
    simp only [Jacobain.to_affine, if_neg hcond]
  rw [hz, inv_eq_of_mul_eq_one_right (show (2 : ZMod 5) * 3 = 1 by decide)]
  decide

/-- C3 (amended): `to_affine` is the identity on infinity (`z = 0`) or when
`z = 1`; otherwise it sets `x` to `x / z²` and `y` to `y / z³` and replaces
`z` by `z⁻¹` (rather than leaving it unchanged); `from_affine` sets `z` to
`1` and keeps `x`, `y`. -/
theorem C3_to_affine_from_affine (p : JPoint F) :
    (p.z = 0 ∨ p.z = 1 → Jacobain.to_affine p = p) ∧
      (p.z ≠ 0 → p.z ≠ 1 →
        (Jacobain.to_affine p).x = p.x / p.z ^ 2 ∧
          (Jacobain.to_affine p).y = p.y / p.z ^ 3 ∧
          (Jacobain.to_affine p).z = p.z⁻¹) ∧
      Jacobain.from_affine p = ⟨p.x, p.y, 1⟩ := by
  refine ⟨fun h => ?_, fun h0 h1 => ?_, rfl⟩
  · simp only [Jacobain.to_affine, if_pos h]
  · have hcond : ¬(p.z = 0 ∨ p.z = 1) := by
      intro h
      rcases h with h | h
      · exact h0 h
      · exact h1 h
    have hx : (Jacobain.to_affine p).x = p.x * (p.z⁻¹ * p.z⁻¹) := by
      simp only [Jacobain.to_affine, if_neg hcond]
    have hy : (Jacobain.to_affine p).y = p.y * (p.z⁻¹ * p.z⁻¹ * p.z⁻¹) := by
      simp only [Jacobain.to_affine, if_neg hcond]
    have hz : (Jacobain.to_affine p).z = p.z⁻¹ := by
      simp only [Jacobain.to_affine, if_neg hcond]
    refine ⟨?_, ?_, hz⟩
    · rw [hx, div_eq_mul_inv, ← inv_pow]
      ring
    · rw [hy, div_eq_mul_inv, ← inv_pow]
      ring

/-- C3 witness: the amended statement instantiated at `p = (1, 1, 2)` over
`F₅`, where `z ≠ 0` and `z ≠ 1`. -/
theorem C3_to_affine_from_affine_witness :
    (Jacobain.to_affine (⟨1, 1, 2⟩ : JPoint (ZMod 5))).x = 1 / 2 ^ 2 ∧
      (Jacobain.to_affine (⟨1, 1, 2⟩ : JPoint (ZMod 5))).y = 1 / 2 ^ 3 ∧
      (Jacobain.to_affine (⟨1, 1, 2⟩ : JPoint (ZMod 5))).z = 2⁻¹ :=
  (C3_to_affine_from_affine (⟨1, 1, 2⟩ : JPoint (ZMod 5))).2.1
    (by decide) (by decide)

/-- Unfolding of `Jacobain::add` in the branch where neither point is at
infinity: the code's precomputed `a, b, c, d` products appear verbatim. -/
theorem Jacobain.add_of_ne (cA : F) (p q : JPoint F) (hp : p.z ≠ 0)
    (hq : q.z ≠ 0) :
    Jacobain.add cA p q =
      if q.z * q.z * p.x = p.z * p.z * q.x ∧
          q.z * q.z * q.z * p.y = p.z * p.z * p.z * q.y then
        Jacobain.add_self cA p
      else
        Jacobain.add_distinct_inner p q (q.z * q.z * p.x) (p.z * p.z * q.x)
          (q.z * q.z * q.z * p.y) (p.z * p.z * p.z * q.y) := by
  simp only [Jacobain.add, if_neg hp, if_neg hq]

/-- C4: `add(out, p, q)` implements the claimed case analysis.  With
`A = x₁z₂²`, `B = x₂z₁²`, `C = y₁z₂³`, `D = y₂z₁³`: infinity short-circuits,
`A = B ∧ C = D` yields the doubling of `p`, `A = B ∧ C = -D` yields a point
at infinity (`z = 0`), and otherwise the result is the chord formula
`x₃ = F² - 2AE² - E³`, `y₃ = F(AE² - x₃) - CE³`, `z₃ = z₁z₂E` with
`E = B - A`, `F = D - C`. -/
theorem C4_add_case_analysis (cA : F) (p q : JPoint F) :
    (p.z = 0 → Jacobain.add cA p q = q) ∧
      (p.z ≠ 0 → q.z = 0 → Jacobain.add cA p q = p) ∧
      (p.z ≠ 0 → q.z ≠ 0 →
        let aA := p.x * q.z ^ 2
        let bB := q.x * p.z ^ 2
        let cC := p.y * q.z ^ 3
        let dD := q.y * p.z ^ 3
        let eE := bB - aA
        let fF := dD - cC
        (aA = bB ∧ cC = dD → Jacobain.add cA p q = Jacobain.add_self cA p) ∧
          (aA = bB ∧ cC = -dD → (Jacobain.add cA p q).z = 0) ∧
          (¬(aA = bB ∧ cC = dD) → ¬(aA = bB ∧ cC = -dD) →
            Jacobain.add cA p q =
              ⟨fF ^ 2 - 2 * aA * eE ^ 2 - eE ^ 3,
                fF * (aA * eE ^ 2 - (fF ^ 2 - 2 * aA * eE ^ 2 - eE ^ 3)) -
                  cC * eE ^ 3,
                p.z * q.z * eE⟩)) := by
  refine ⟨fun hp => ?_, fun hp hq => ?_, fun hp hq => ?_⟩
  · simp only [Jacobain.add, if_pos hp]
  · simp only [Jacobain.add, if_neg hp, if_pos hq]
  intro aA bB cC dD eE fF
  refine ⟨fun hab => ?_, fun hab => ?_, fun hne hni => ?_⟩
  · have hcode : q.z * q.z * p.x = p.z * p.z * q.x ∧
        q.z * q.z * q.z * p.y = p.z * p.z * p.z * q.y :=
      ⟨by linear_combination hab.1, by linear_combination hab.2⟩
    rw [Jacobain.add_of_ne cA p q hp hq, if_pos hcode]
  · by_cases hcd : q.z * q.z * q.z * p.y = p.z * p.z * p.z * q.y
    · have hcode : q.z * q.z * p.x = p.z * p.z * q.x ∧
          q.z * q.z * q.z * p.y = p.z * p.z * p.z * q.y :=
        ⟨by linear_combination hab.1, hcd⟩
      rw [Jacobain.add_of_ne cA p q hp hq, if_pos hcode]
      have hzval : (Jacobain.add_self cA p).z = 2 ^ 1 * (p.y * p.z) := by
        simp only [Jacobain.add_self]
      have h2c : (2 : F) * (p.y * q.z ^ 3) = 0 := by
        linear_combination hab.2 + hcd
      rcases mul_eq_zero.mp h2c with h2 | hyz
      · rw [hzval, pow_one, h2, zero_mul]
      · rcases mul_eq_zero.mp hyz with hy | hz3
        · rw [hzval, hy]
          ring
        · exact absurd (pow_eq_zero_iff (by norm_num)|>.mp hz3) hq
    · have hcode : ¬(q.z * q.z * p.x = p.z * p.z * q.x ∧
          q.z * q.z * q.z * p.y = p.z * p.z * p.z * q.y) := fun h => hcd h.2
      rw [Jacobain.add_of_ne cA p q hp hq, if_neg hcode]
      have hzval : (Jacobain.add_distinct_inner p q (q.z * q.z * p.x)
          (p.z * p.z * q.x) (q.z * q.z * q.z * p.y)
          (p.z * p.z * p.z * q.y)).z =
          p.z * q.z * (p.z * p.z * q.x - q.z * q.z * p.x) := by
        simp only [Jacobain.add_distinct_inner]
      rw [hzval]
      linear_combination (-(p.z * q.z)) * hab.1
  · have hcode : ¬(q.z * q.z * p.x = p.z * p.z * q.x ∧
        q.z * q.z * q.z * p.y = p.z * p.z * p.z * q.y) := by
      intro h
      exact hne ⟨by linear_combination h.1, by linear_combination h.2⟩
    rw [Jacobain.add_of_ne cA p q hp hq, if_neg hcode]
    simp only [Jacobain.add_distinct_inner, JPoint.mk.injEq, aA, bB, cC, dD,
      eE, fF]
    refine ⟨by ring, by ring, by ring⟩

/-- C4 witness: the case analysis applied at concrete points over `F₅` — an
infinity input, and a pair of distinct finite points taking the chord
branch. -/
theorem C4_add_case_analysis_witness :
    Jacobain.add (0 : ZMod 5) ⟨1, 2, 0⟩ ⟨2, 1, 1⟩ = ⟨2, 1, 1⟩ ∧
      Jacobain.add (0 : ZMod 5) (⟨1, 2, 1⟩ : JPoint (ZMod 5)) ⟨2, 1, 1⟩ =
        ⟨3, 0, 1⟩ := by
  constructor
  · exact (C4_add_case_analysis (0 : ZMod 5) ⟨1, 2, 0⟩ ⟨2, 1, 1⟩).1 rfl
  · have h := (C4_add_case_analysis (0 : ZMod 5)
      (⟨1, 2, 1⟩ : JPoint (ZMod 5)) ⟨2, 1, 1⟩).2.2 (by decide) (by decide)
    have h5 := h.2.2 (by decide) (by decide)
    exact h5.trans (by decide)

/-- Modelled from the spec: `utils::seq_add` (§4.1), which is not under
`src/` — ripple-carry addition of `N`-limb little-endian sequences, embedded
on values: the result wraps modulo `2 ^ NW` and the boolean is the carry out
of the top limb. -/
def seq_add (NW b c : ℕ) : ℕ × Bool :=
  ((b + c) % 2 ^ NW, decide (2 ^ NW ≤ b + c))

/-- Modelled from the spec: `utils::seq_sub` (§4.1), which is not under
`src/` — ripple-borrow subtraction on values: the result wraps modulo
`2 ^ NW` and the boolean is the borrow out of the top limb. -/
def seq_sub (NW b c : ℕ) : ℕ × Bool :=
  ((b + (2 ^ NW - c)) % 2 ^ NW, decide (b < c))

/-- `ModAddSub::add` (src/unnamed/part_002, lines 50-68): one ripple-carry
add, then one subtraction of `MOD` when the carry is set or the raw value
compares not-less-than `MOD` (`utils::VtSeqCmp` is value comparison). -/
def ModAddSub.add (NW M b c : ℕ) : ℕ :=
  let r := seq_add NW b c
  if r.2 || !(decide (r.1 < M)) then (seq_sub NW r.1 M).1 else r.1

/-- `MulPow2Helper` (src/unnamed/part_002, lines 13-34): `K` rounds of
"record the top bit, shift left one bit, subtract `MOD` once if the bit was
set or the result compares not-less-than `MOD`". -/
def MulPow2Helper.call (NW M : ℕ) : ℕ → ℕ → ℕ
  | 0, a => a
  | K + 1, a =>
    let carry := Nat.testBit a (NW - 1)
    let a1 := 2 * a % 2 ^ NW
    let a2 := if carry || !(decide (a1 < M)) then (seq_sub NW a1 M).1 else a1
    MulPow2Helper.call NW M K a2

/-- `ModAddSub::mul_pow2<K>` (src/unnamed/part_002, lines 99-104). -/
def ModAddSub.mul_pow2 (NW M K a : ℕ) : ℕ :=
  MulPow2Helper.call NW M K a

/-- `ModAddSub::add_self` (src/unnamed/part_002, lines 106-110):
`MulPow2Helper<…, 1, …>::call`. -/
def ModAddSub.add_self (NW M a : ℕ) : ℕ :=
  MulPow2Helper.call NW M 1 a

/-- `CarryFreeMulPow2Helper` (src/unnamed/part_002, lines 113-129): level
`K > 0` shifts left by `K` bits (not one), subtracts `MOD` at most once, and
then recurses at level `K - 1`. -/
def CarryFreeMulPow2Helper.call (NW M : ℕ) : ℕ → ℕ → ℕ
  | 0, a => a
  | K + 1, a =>
    let a1 := 2 ^ (K + 1) * a % 2 ^ NW
    let a2 := if !(decide (a1 < M)) then (seq_sub NW a1 M).1 else a1
    CarryFreeMulPow2Helper.call NW M K a2

/-- `ModAddSubMixinCarryFree::mul_pow2<K>` (src/unnamed/part_002, lines
202-207). -/
def ModAddSubMixinCarryFree.mul_pow2 (NW M K a : ℕ) : ℕ :=
  CarryFreeMulPow2Helper.call NW M K a

/-- The add-group `add` computes `(b + c) mod M` for reduced inputs. -/
theorem ModAddSub.add_eq_mod (NW M b c : ℕ) (hM : M ≤ 2 ^ NW) (hb : b < M)
    (hc : c < M) : ModAddSub.add NW M b c = (b + c) % M := by
  simp only [ModAddSub.add, seq_add, seq_sub]
  by_cases hcar : 2 ^ NW ≤ b + c
  · have hraw : (b + c) % 2 ^ NW = b + c - 2 ^ NW := by
      rw [Nat.mod_eq_sub_mod hcar, Nat.mod_eq_of_lt (by omega)]
    rw [if_pos (by simp [hcar])]
    rw [hraw, Nat.mod_eq_of_lt (by omega),
      Nat.mod_eq_sub_mod (by omega : M ≤ b + c), Nat.mod_eq_of_lt (by omega)]
    omega
  · have hraw : (b + c) % 2 ^ NW = b + c := Nat.mod_eq_of_lt (by omega)
    by_cases hge : b + c < M
    · rw [if_neg (by simp [hraw, hcar, hge])]
      rw [hraw, Nat.mod_eq_of_lt hge]
    · rw [if_pos (by simp [hraw, hge])]
      rw [hraw, show b + c + (2 ^ NW - M) = b + c - M + 2 ^ NW by omega,
        Nat.add_mod_right, Nat.mod_eq_of_lt (by omega),
        Nat.mod_eq_sub_mod (by omega : M ≤ b + c), Nat.mod_eq_of_lt (by omega)]

/-- C6: for reduced inputs, the add-group `add` is `(b + c) mod M` and the
result is reduced; in particular `add(0,0) = 0` and `add(M-1,1) = 0`. -/
theorem C6_add_group_add (NW M : ℕ) (hM : M ≤ 2 ^ NW) :
    (∀ b c, b < M → c < M →
      ModAddSub.add NW M b c = (b + c) % M ∧ ModAddSub.add NW M b c < M) ∧
      (0 < M → ModAddSub.add NW M 0 0 = 0) ∧
      (1 < M → ModAddSub.add NW M (M - 1) 1 = 0) := by
  refine ⟨fun b c hb hc => ?_, fun h1 => ?_, fun h2 => ?_⟩
  · have he := ModAddSub.add_eq_mod NW M b c hM hb hc
    exact ⟨he, he ▸ Nat.mod_lt _ (by omega)⟩
  · rw [ModAddSub.add_eq_mod NW M 0 0 hM h1 h1]
    simp
  · rw [ModAddSub.add_eq_mod NW M (M - 1) 1 hM (by omega) (by omega),
      Nat.sub_add_cancel (by omega), Nat.mod_self]

/-- C6 witness: one 8-bit limb, `M = 100`. -/
theorem C6_add_group_add_witness :
    ModAddSub.add 8 100 70 80 = (70 + 80) % 100 ∧
      ModAddSub.add 8 100 0 0 = 0 ∧ ModAddSub.add 8 100 99 1 = 0 := by
  have h := C6_add_group_add 8 100 (by norm_num)
  exact ⟨(h.1 70 80 (by norm_num) (by norm_num)).1, h.2.1 (by norm_num),
    h.2.2 (by norm_num)⟩

/-- The top bit of the top limb of a reduced sequence is set exactly when
the value is at least `2 ^ (NW - 1)`. -/
theorem testBit_top (NW a : ℕ) (hNW : 1 ≤ NW) (ha : a < 2 ^ NW) :
    Nat.testBit a (NW - 1) = decide (2 ^ (NW - 1) ≤ a) := by
  have hpow : 2 ^ NW = 2 * 2 ^ (NW - 1) := by
    conv_lhs => rw [show NW = NW - 1 + 1 by omega]
    rw [pow_succ]
    ring
  have hq : a / 2 ^ (NW - 1) < 2 :=
    Nat.div_lt_of_lt_mul (by omega)
  rw [Nat.testBit_to_div_mod]
  rcases Nat.lt_or_ge a (2 ^ (NW - 1)) with hlt | hge
  · have h0 : a / 2 ^ (NW - 1) = 0 := Nat.div_eq_of_lt hlt
    simp [h0, Nat.not_le.mpr hlt]
  · have h1 : 1 ≤ a / 2 ^ (NW - 1) :=
      (Nat.one_le_div_iff (pow_pos (by norm_num) _)).mpr hge
    have h2 : a / 2 ^ (NW - 1) = 1 := by omega
    simp [h2, hge]

/-- One round of the generic `MulPow2Helper` doubles modulo `M`. -/
theorem MulPow2Helper.call_one (NW M a : ℕ) (hNW : 1 ≤ NW) (hM : M ≤ 2 ^ NW)
    (ha : a < M) : MulPow2Helper.call NW M 1 a = 2 * a % M := by
  have hpow : 2 ^ NW = 2 * 2 ^ (NW - 1) := by
    conv_lhs => rw [show NW = NW - 1 + 1 by omega]
    rw [pow_succ]
    ring
  have htb := testBit_top NW a hNW (by omega)
  simp only [MulPow2Helper.call, seq_sub]
  by_cases hcar : 2 ^ NW ≤ 2 * a
  · have hbit : 2 ^ (NW - 1) ≤ a := by omega
    have hraw : 2 * a % 2 ^ NW = 2 * a - 2 ^ NW := by
      rw [Nat.mod_eq_sub_mod hcar, Nat.mod_eq_of_lt (by omega)]
    rw [if_pos (by simp [htb, hbit])]
    rw [hraw, Nat.mod_eq_of_lt (by omega),
      Nat.mod_eq_sub_mod (by omega : M ≤ 2 * a), Nat.mod_eq_of_lt (by omega)]
    omega
  · have hbit : ¬2 ^ (NW - 1) ≤ a := by omega
    have hraw : 2 * a % 2 ^ NW = 2 * a := Nat.mod_eq_of_lt (by omega)
    by_cases hge : 2 * a < M
    · rw [if_neg (by simp [htb, hbit, hraw, hge])]
      rw [hraw, Nat.mod_eq_of_lt hge]
    · rw [if_pos (by simp [htb, hraw, hge])]
      rw [hraw, show 2 * a + (2 ^ NW - M) = 2 * a - M + 2 ^ NW by omega,
        Nat.add_mod_right, Nat.mod_eq_of_lt (by omega),
        Nat.mod_eq_sub_mod (by omega : M ≤ 2 * a), Nat.mod_eq_of_lt (by omega)]

/-- The generic `mul_pow2` helper computes `2 ^ K * a mod M` on reduced
inputs. -/
theorem MulPow2Helper.call_eq_mod (NW M : ℕ) (hNW : 1 ≤ NW)
    (hM : M ≤ 2 ^ NW) :
    ∀ K a, a < M → MulPow2Helper.call NW M K a = 2 ^ K * a % M := by
  intro K
  induction K with
  | zero =>
    intro a ha
    simp only [MulPow2Helper.call, pow_zero, one_mul]
    exact (Nat.mod_eq_of_lt ha).symm
  | succ K ih =>
    intro a ha
    have hstep : MulPow2Helper.call NW M (K + 1) a =
        MulPow2Helper.call NW M K (MulPow2Helper.call NW M 1 a) := rfl
    rw [hstep, MulPow2Helper.call_one NW M a hNW hM ha,
      ih (2 * a % M) (Nat.mod_lt _ (by omega))]
    rw [Nat.mul_mod_mod, show 2 ^ K * (2 * a) = 2 ^ (K + 1) * a by ring]

/-- C7: on reduced inputs, `add_self` coincides with `mul_pow2<1>` and with
`add(a, a)`, and `mul_pow2<k>` computes the group element `2^k · a mod M`. -/
theorem C7_mul_pow2_spec (NW M k a : ℕ) (hNW : 1 ≤ NW) (hM : M ≤ 2 ^ NW)
    (ha : a < M) :
    ModAddSub.add_self NW M a = ModAddSub.mul_pow2 NW M 1 a ∧
      ModAddSub.mul_pow2 NW M 1 a = ModAddSub.add NW M a a ∧
      ModAddSub.mul_pow2 NW M k a = 2 ^ k * a % M := by
  refine ⟨rfl, ?_, ?_⟩
  · rw [ModAddSub.mul_pow2, MulPow2Helper.call_one NW M a hNW hM ha,
      ModAddSub.add_eq_mod NW M a a hM ha ha, two_mul]
  · exact MulPow2Helper.call_eq_mod NW M hNW hM k a ha

/-- C7 witness: one 8-bit limb, `M = 100`, `k = 5`, `a = 60`. -/
theorem C7_mul_pow2_spec_witness :
    ModAddSub.add_self 8 100 60 = ModAddSub.mul_pow2 8 100 1 60 ∧
      ModAddSub.mul_pow2 8 100 1 60 = ModAddSub.add 8 100 60 60 ∧
      ModAddSub.mul_pow2 8 100 5 60 = 2 ^ 5 * 60 % 100 :=
  C7_mul_pow2_spec 8 100 5 60 (by norm_num) (by norm_num) (by norm_num)

/-- C2: the carry-free `mul_pow2<K>` does not perform a single `K`-bit shift
with one conditional subtraction — each recursion level shifts again — and
its result differs from `2^K · a mod M` even under the precondition
`M < 2^(NW-1)`.  With one 8-bit limb, `M = 100 < 2^7`, `K = 2`, `a = 60`:
the carry-free variant returns 24 while `2² · 60 mod 100 = 40`, the value
the generic variant returns. -/
theorem C2_carry_free_mul_pow2_wrong :
    ModAddSubMixinCarryFree.mul_pow2 8 100 2 60 = 24 ∧
      ModAddSub.mul_pow2 8 100 2 60 = 40 ∧
      2 ^ 2 * 60 % 100 = 40 ∧
      100 < 2 ^ (8 - 1) ∧ (60 : ℕ) < 100 ∧
      ModAddSubMixinCarryFree.mul_pow2 8 100 2 60 ≠ 2 ^ 2 * 60 % 100 := by
  refine ⟨?_, ?_, ?_, ?_, ?_, ?_⟩ <;> decide

/-- Modelled from the spec: `most_significant_bit` (§4.2), whose
implementation is not under `src/` — the 1-based position of the highest
set bit, or 0 for zero.  The first argument is fuel making the binary
recursion structural; `most_significant_bit` supplies enough. -/
def msbAux : ℕ → ℕ → ℕ
  | 0, _ => 0
  | fuel + 1, x => if x = 0 then 0 else msbAux fuel (x / 2) + 1

/-- Modelled from the spec: `most_significant_bit` (§4.2). -/
def most_significant_bit (x : ℕ) : ℕ :=
  msbAux x x

/-- The jump-table length `m` computed by `pollard_lambda` and
`multithread_pollard_lambda` (src/include/gec/dlp/pollard_lambda.hpp, lines
43-45 and 247-249): `most_significant_bit(b - a) - 1`. -/
def jump_table_len (a b : ℕ) : ℕ :=
  most_significant_bit (b - a) - 1

theorem msbAux_pos (fuel x : ℕ) (hx : 1 ≤ x) (hf : x ≤ fuel) :
    1 ≤ msbAux fuel x := by
  cases fuel with
  | zero => omega
  | succ fuel =>
    simp only [msbAux, if_neg (by omega : ¬x = 0)]
    omega

theorem msbAux_two_le (fuel x : ℕ) (hx : 2 ≤ x) (hf : x ≤ fuel) :
    2 ≤ msbAux fuel x := by
  cases fuel with
  | zero => omega
  | succ fuel =>
    simp only [msbAux, if_neg (by omega : ¬x = 0)]
    have h1 : 1 ≤ msbAux fuel (x / 2) :=
      msbAux_pos fuel (x / 2) (by omega) (by omega)
    omega

/-- C10 counterexample: at `a = 0`, `b = 1` we have `a < b` yet the computed
jump-table length is `0`, so the `% m` index computations would divide by
zero; the claimed bound `m ≥ 1` fails. -/
theorem C10_len_zero_at_one :
    (0 : ℕ) < 1 ∧ jump_table_len 0 1 = 0 ∧ ¬1 ≤ jump_table_len 0 1 := by
  refine ⟨?_, ?_, ?_⟩ <;> decide

/-- C10 (amended): for `a < b` with `b - a ≥ 2`, the jump-table length
`m = most_significant_bit(b - a) - 1` is at least 1, so the `% m` index
computations in the walks never take a modulus of zero. -/
theorem C10_len_pos (a b : ℕ) (hab : a < b) (h2 : 2 ≤ b - a) :
    1 ≤ jump_table_len a b := by
  have h := msbAux_two_le (b - a) (b - a) h2 (le_refl _)
  simp only [jump_table_len, most_significant_bit]
  omega

/-- C10 witness: `a = 0`, `b = 2`. -/
theorem C10_len_pos_witness : 1 ≤ jump_table_len 0 2 :=
  C10_len_pos 0 2 (by norm_num) (by norm_num)

/-- The jump-table shuffle (pollard_lambda.hpp lines 49-52 and 142-146):
for `i = 0, …, m-1`, the contents at positions `ri = m-1-i` and
`rng.sample(ri)` are exchanged.  Viewing the array contents as a function on
indices, one exchange is composition with a transposition.  `samp` models
`rng.sample`, whose contract (spec §4.6) is a value in `[0, ri]`; an
out-of-range sample — out-of-bounds indexing in the C++ — is modelled as a
skip. -/
def jump_shuffle (m : ℕ) (samp : ℕ → ℕ) : Equiv.Perm (Fin m) :=
  (List.finRange m).foldl
    (fun acc i =>
      if h : samp i.rev.val < m then
        (Equiv.swap i.rev ⟨samp i.rev.val, h⟩).trans acc
      else acc)
    (Equiv.refl (Fin m))

/-- The scalar jump table after construction (pollard_lambda.hpp lines
46-57, and identically lines 139-152 in the multithreaded worker): position
`i` starts holding `i`, the shuffle permutes the contents, and the final
pass replaces the exponent `e` at each position by `set_pow2(e) = 2^e`. -/
def jump_sl (m : ℕ) (samp : ℕ → ℕ) (i : Fin m) : ℕ :=
  2 ^ (jump_shuffle m samp i).val

/-- The point jump table: `P::mul(pl[i], sl[i], g)` — `sl[i]` copies of `g`
in an additive group. -/
def jump_pl (m : ℕ) (samp : ℕ → ℕ) {G : Type} [AddCommMonoid G] (g : G)
    (i : Fin m) : G :=
  jump_sl m samp i • g

/-- C8: after jump-table construction, the scalar table is a permutation of
`2^0, …, 2^(m-1)` — every such power appears at exactly one index — and
each point entry is `[s[i]]·g`. -/
theorem C8_jump_table (m : ℕ) (samp : ℕ → ℕ) {G : Type} [AddCommMonoid G]
    (g : G) (hs : ∀ r, samp r ≤ r) :
    (∀ e, e < m → ∃! i : Fin m, jump_sl m samp i = 2 ^ e) ∧
      ∀ i : Fin m, jump_pl m samp g i = jump_sl m samp i • g := by
  refine ⟨fun e he => ?_, fun i => rfl⟩
  refine ⟨(jump_shuffle m samp).symm ⟨e, he⟩, ?_, fun j hj => ?_⟩
  · simp [jump_sl]
  · have hval : (jump_shuffle m samp j).val = e :=
      Nat.pow_right_injective (le_refl 2) hj
    have hfin : jump_shuffle m samp j = ⟨e, he⟩ := Fin.ext hval
    rw [← hfin, Equiv.symm_apply_apply]

/-- C8 witness: `m = 4` with the in-range sampler `r ↦ r / 2`, over the
additive group of integers with `g = 5`. -/
theorem C8_jump_table_witness :
    (∃! i : Fin 4, jump_sl 4 (fun r => r / 2) i = 2 ^ 2) ∧
      jump_pl 4 (fun r => r / 2) (5 : ℤ) 0 =
        jump_sl 4 (fun r => r / 2) 0 • (5 : ℤ) := by
  have h := C8_jump_table 4 (fun r => r / 2) (5 : ℤ)
    (fun r => Nat.div_le_self r 2)
  exact ⟨h.1 2 (by norm_num), h.2 0⟩

variable {n : ℕ} {G : Type} [AddCommGroup G] [DecidableEq G]
variable [Module (ZMod n) G]

/-- The tame walk of `pollard_lambda` (pollard_lambda.hpp lines 61-66),
running for `bound` steps: the jump index `i = u.x().array()[0] % m` is
modelled by `pidx u % sl.length`, then `x += sl[i]` and `u += pl[i]`.
Scalars are the scalar group `ZMod n`; the curve group is abstracted to an
additive group `G` with `P::mul` as scalar multiplication. -/
def tame_walk (pidx : G → ℕ) (sl : List (ZMod n)) (pl : List G) :
    ℕ → ZMod n × G → ZMod n × G
  | 0, s => s
  | fuel + 1, s =>
    let i := pidx s.2 % sl.length
    tame_walk pidx sl pl fuel (s.1 + sl.getD i 0, s.2 + pl.getD i 0)

/-- The wild walk (pollard_lambda.hpp lines 68-79): each step first
compares `U = V` and on a hit writes `x - d` and returns; otherwise
`d += sl[j]`, `V += pl[j]` with `j = v.x().array()[0] % m`.  Exhausted fuel
(`idx` reaching `bound`) yields `none` and the outer loop retries. -/
def wild_walk (pidx : G → ℕ) (sl : List (ZMod n)) (pl : List G) (u : G)
    (x : ZMod n) : ℕ → ZMod n → G → Option (ZMod n)
  | 0, _, _ => none
  | fuel + 1, d, v =>
    if u = v then some (x - d)
    else
      let j := pidx v % sl.length
      wild_walk pidx sl pl u x fuel (d + sl.getD j 0) (v + pl.getD j 0)

/-- One pass of the outer retry loop of `pollard_lambda` (lines 40-80):
tame walk from `(x₀, [x₀]g)`, then wild walk from `V = h` with `d = 0`. -/
def lambda_pass (g : G) (pidx : G → ℕ) (sl : List (ZMod n)) (pl : List G)
    (bound : ℕ) (x0 : ZMod n) (h : G) : Option (ZMod n) :=
  let s := tame_walk pidx sl pl bound (x0, x0 • g)
  wild_walk pidx sl pl s.2 s.1 bound 0 h

/-- `pollard_lambda` (pollard_lambda.hpp lines 24-81): unbounded retries
over fresh jump tables and tame starts, modelled with fuel; `tabs t`
supplies the jump table `(sl, pl)` and the sampled tame start of retry
`t`. -/
def pollard_lambda (g : G) (pidx : G → ℕ)
    (tabs : ℕ → List (ZMod n) × List G × ZMod n) (bound : ℕ) (h : G) :
    ℕ → Option (ZMod n)
  | 0 => none
  | t + 1 =>
    match lambda_pass g pidx (tabs t).1 (tabs t).2.1 bound (tabs t).2.2 h with
    | some r => some r
    | none => pollard_lambda g pidx tabs bound h t

/-- If every in-range point entry is the scalar entry acting on `g` and the
tables have equal length, the same holds at every index (out of range, both
sides are the additive identity). -/
theorem jump_getD_smul (g : G) (sl : List (ZMod n)) (pl : List G)
    (hlen : pl.length = sl.length)
    (hpl : ∀ i, i < sl.length → pl.getD i 0 = sl.getD i 0 • g) :
    ∀ i, pl.getD i 0 = sl.getD i 0 • g := by
  intro i
  by_cases hi : i < sl.length
  · exact hpl i hi
  · rw [List.getD_eq_default _ _ (by omega), List.getD_eq_default _ _ (by omega),
      zero_smul]

theorem tame_walk_succ (pidx : G → ℕ) (sl : List (ZMod n)) (pl : List G)
    (fuel : ℕ) (s : ZMod n × G) :
    tame_walk pidx sl pl (fuel + 1) s =
      tame_walk pidx sl pl fuel
        (s.1 + sl.getD (pidx s.2 % sl.length) 0,
          s.2 + pl.getD (pidx s.2 % sl.length) 0) := rfl

/-- Tame-walk invariant: the point tracks the scalar, `U = [x]g`. -/
theorem tame_walk_inv (g : G) (pidx : G → ℕ) (sl : List (ZMod n))
    (pl : List G) (hsm : ∀ i, pl.getD i 0 = sl.getD i 0 • g) :
    ∀ (fuel : ℕ) (s : ZMod n × G), s.2 = s.1 • g →
      (tame_walk pidx sl pl fuel s).2 = (tame_walk pidx sl pl fuel s).1 • g := by
  intro fuel
  induction fuel with
  | zero => exact fun s hs => hs
  | succ fuel ih =>
    intro s hs
    rw [tame_walk_succ]
    apply ih
    rw [add_smul, ← hs, hsm]

theorem wild_walk_succ (pidx : G → ℕ) (sl : List (ZMod n)) (pl : List G)
    (u : G) (x : ZMod n) (fuel : ℕ) (d : ZMod n) (v : G) :
    wild_walk pidx sl pl u x (fuel + 1) d v =
      if u = v then some (x - d)
      else
        wild_walk pidx sl pl u x fuel (d + sl.getD (pidx v % sl.length) 0)
          (v + pl.getD (pidx v % sl.length) 0) := rfl

/-- Wild-walk invariant and exit: `V = h + [d]g` is maintained, and on a
return the written scalar `x - d` maps to `h` under `g`. -/
theorem wild_walk_spec (g : G) (pidx : G → ℕ) (sl : List (ZMod n))
    (pl : List G) (hsm : ∀ i, pl.getD i 0 = sl.getD i 0 • g) (u : G)
    (x : ZMod n) (hu : u = x • g) (h : G) :
    ∀ (fuel : ℕ) (d : ZMod n) (v : G), v = h + d • g →
      ∀ r, wild_walk pidx sl pl u x fuel d v = some r →
        r • g = h ∧ ∃ d0, r = x - d0 ∧ x • g = h + d0 • g := by
  intro fuel
  induction fuel with
  | zero => exact fun d v _ r hr => Option.noConfusion hr
  | succ fuel ih =>
    intro d v hv r hr
    rw [wild_walk_succ] at hr
    by_cases huv : u = v
    · rw [if_pos huv] at hr
      have hxg : x • g = h + d • g := by rw [← hu, huv, hv]
      injection hr with hr
    
      subst hr
      refine ⟨?_, d, rfl, hxg⟩
      rw [sub_smul, hxg]
      abel
    · rw [if_neg huv] at hr
      exact ih (d + sl.getD (pidx v % sl.length) 0)
        (v + pl.getD (pidx v % sl.length) 0)
        (by rw [add_smul, ← hsm, hv]; abel) r hr

/-- One pass of the solver only returns discrete logarithms of `h`. -/
theorem lambda_pass_spec (g : G) (pidx : G → ℕ) (sl : List (ZMod n))
    (pl : List G) (bound : ℕ) (x0 : ZMod n) (h : G)
    (hlen : pl.length = sl.length)
    (hpl : ∀ i, i < sl.length → pl.getD i 0 = sl.getD i 0 • g) (r : ZMod n)
    (hr : lambda_pass g pidx sl pl bound x0 h = some r) :
    r • g = h ∧ ∃ xT d, r = xT - d ∧ xT • g = h + d • g := by
  have hsm := jump_getD_smul g sl pl hlen hpl
  have htame := tame_walk_inv g pidx sl pl hsm bound (x0, x0 • g) rfl
  have hw := wild_walk_spec g pidx sl pl hsm _ _ htame h bound 0 h
    (by rw [zero_smul, add_zero]) r hr
  exact ⟨hw.1, (tame_walk pidx sl pl bound (x0, x0 • g)).1, hw.2⟩

/-- C5: whenever `pollard_lambda` returns — which only happens on a wild
walk hit `U = V` — the scalar it writes is `x_T - d` for the tame scalar
`x_T` (with `[x_T]g = U = V = h + [d]g`) and it satisfies
`scalar_mul(x, g) = h`. -/
theorem C5_pollard_lambda_correct (g : G) (pidx : G → ℕ)
    (tabs : ℕ → List (ZMod n) × List G × ZMod n) (bound : ℕ) (h : G)
    (htabs : ∀ t, ((tabs t).2.1).length = ((tabs t).1).length ∧
      ∀ i, i < ((tabs t).1).length →
        ((tabs t).2.1).getD i 0 = ((tabs t).1).getD i 0 • g)
    (fuel : ℕ) :
    ∀ r, pollard_lambda g pidx tabs bound h fuel = some r →
      r • g = h ∧ ∃ xT d, r = xT - d ∧ xT • g = h + d • g := by
  induction fuel with
  | zero => exact fun r hr => Option.noConfusion hr
  | succ fuel ih =>
    intro r hr
    rcases hpass : lambda_pass g pidx (tabs fuel).1 (tabs fuel).2.1 bound
        (tabs fuel).2.2 h with _ | r'
    · have hstep : pollard_lambda g pidx tabs bound h (fuel + 1) =
          pollard_lambda g pidx tabs bound h fuel := by
        simp [pollard_lambda, hpass]
      exact ih r (hstep ▸ hr)
    · have hstep : pollard_lambda g pidx tabs bound h (fuel + 1) = some r' := by
        simp [pollard_lambda, hpass]
      have hr' : r' = r := by
        rw [hstep] at hr
        injection hr
      exact hr' ▸ lambda_pass_spec g pidx (tabs fuel).1 (tabs fuel).2.1 bound
        (tabs fuel).2.2 h (htabs fuel).1 (htabs fuel).2 r' hpass

/-- C5 witness: over `G = ZMod 5` with `g = 1`, `h = 3`, jump table
`sl = [1, 2]`, `pl = [1, 2]`, tame start `0` and `bound = 10`, the solver
returns `3`, and the theorem yields `[3]·g = h`. -/
theorem C5_pollard_lambda_correct_witness :
    (3 : ZMod 5) • (1 : ZMod 5) = 3 ∧
      ∃ xT d : ZMod 5, (3 : ZMod 5) = xT - d ∧
        xT • (1 : ZMod 5) = 3 + d • (1 : ZMod 5) := by
  have h := C5_pollard_lambda_correct (n := 5) (G := ZMod 5) 1
    (fun v => v.val) (fun _ => ([1, 2], [1, 2], 0)) 10 3
    (by
      intro t
      refine ⟨rfl, ?_⟩
      show ∀ i, i < ([1, 2] : List (ZMod 5)).length →
        ([1, 2] : List (ZMod 5)).getD i 0 =
          ([1, 2] : List (ZMod 5)).getD i 0 • (1 : ZMod 5)
      decide) 1
  exact h 3 (by decide)
